import Mathlib

/-!
Verification of the hybrid-search fusion / reranking core of the Law-man
repository (`backend/app/services/hybrid_search.py`,
`backend/app/services/reranker.py`, `backend/app/routers/ask.py`).

Modelling conventions:
* Python floats are modelled as exact rationals (`ℚ`).
* A Python dict entry that may be absent is an `Option`; accessing a
  possibly-absent key with `r["k"]` is a fallible operation, so the merge
  functions return `Except String _` and raise a `KeyError`-style error
  exactly where the Python code would raise `KeyError`. `r.get("k", d)`
  becomes `Option.getD`. The join key is the exception: both backend
  formatters (`format_search_results`, `format_qdrant_results`) emit the
  `"clause_id"` key with `.get(...)`, so it is always present — possibly
  with value `None` — and `cid = r["clause_id"]` never raises. `Hit`'s
  `clause_id : Option String` is therefore the Python value of that
  always-present key, `none` standing for `None`, and the join map is
  keyed by `Option String`: a `None`-keyed hit joins under the `None`
  key, exactly as CPython does.
* The Python `dict` used as the join map is an association list whose
  assignment replaces the value in place (keeping the key's original
  position, as CPython dicts do) and otherwise appends at the end.
* Display-only fields that no claim touches (`page`, `line_range`, `lang`)
  are omitted from the record; they are carried through unchanged by every
  operation exactly like `heading`.
-/

namespace LawMan

/-- One retrieved clause record, as passed between the pipeline stages.
Fields that a backend might not supply are `Option`s; for `clause_id`,
`none` is the present-but-`None` value the formatters produce with
`.get("clause_id")` (a truly absent `"clause_id"` key cannot leave the
formatters); for every other optional field `none` models a missing dict
key. -/
structure Hit where
  contract_id : Option String := none
  clause_id : Option String := none
  heading : Option String := none
  text_snippet : Option String := none
  score : Option ℚ := none
  highlight : List String := []
  norm_score : Option ℚ := none
  bm25_score : Option ℚ := none
  vec_score : Option ℚ := none
  hybrid_score : Option ℚ := none
  reranker_score : Option ℚ := none
deriving DecidableEq, Repr

/-- `float(r.get("score", 0.0))` — the raw score the normalizer reads. -/
def rawScore (r : Hit) : ℚ := r.score.getD 0

/-- Python `min` over a list of scores (the empty case is unreachable in
`normalize_scores`, which returns early on an empty list). -/
def listMin : List ℚ → ℚ
  | [] => 0
  | x :: xs => xs.foldl min x

/-- Python `max` over a list of scores. -/
def listMax : List ℚ → ℚ
  | [] => 0
  | x :: xs => xs.foldl max x

/-- `normalize_scores` from `hybrid_search.py`: early-return on empty input;
if `min == max` set every `norm_score` to `1.0`; otherwise min–max rescale
each hit's raw score. -/
def normalize_scores (results : List Hit) : List Hit :=
  match results with
  | [] => results
  | _ :: _ =>
    let scores := results.map rawScore
    let min_s := listMin scores
    let max_s := listMax scores
    if min_s = max_s then
      results.map (fun r => { r with norm_score := some 1 })
    else
      results.map (fun r => { r with norm_score := some ((rawScore r - min_s) / (max_s - min_s)) })

/-- The `combined` Python dict of `fuse_results`, as an association list in
insertion order. Keys are the values of the hits' always-present
`"clause_id"` entry, so `none` (Python `None`) is a legal key. -/
abbrev Combined := List (Option String × Hit)

/-- Dict lookup (`combined[cid]` on the read side / `cid in combined`). -/
def dictGet : Combined → Option String → Option Hit
  | [], _ => none
  | p :: m, k => if p.1 = k then some p.2 else dictGet m k

/-- Dict assignment `combined[cid] = v`: replace in place if the key is
present (CPython keeps the key's original position), else append. -/
def dictSet : Combined → Option String → Hit → Combined
  | [], k, v => [(k, v)]
  | p :: m, k, v => if p.1 = k then (k, v) :: m else p :: dictSet m k v

/-- The keys of the join map, in insertion order. -/
def dictKeys (m : Combined) : List (Option String) := m.map (·.1)

/-- The record inserted for a lexical (BM25) hit:
`combined[cid] = dict(r); combined[cid]["bm25_score"] = r["norm_score"];
combined[cid]["vec_score"] = 0.0`. -/
def osEntry (r : Hit) : Hit :=
  { r with bm25_score := r.norm_score, vec_score := some 0 }

/-- Updating an existing entry with a vector hit for the same key:
`combined[cid]["vec_score"] = r["norm_score"];
combined[cid]["score"] = max(combined[cid]["score"], r["score"])`. -/
def qdUpdate (ex r : Hit) : Hit :=
  { ex with vec_score := r.norm_score,
            score := some (max (ex.score.getD 0) (r.score.getD 0)) }

/-- The record inserted for a vector-only hit:
`combined[cid] = dict(r); bm25_score = 0.0; vec_score = r["norm_score"];
highlight = []`. -/
def qdNewEntry (r : Hit) : Hit :=
  { r with bm25_score := some 0, vec_score := r.norm_score, highlight := [] }

/-- First loop of `fuse_results`: seed `combined` from the BM25 list.
`cid = r["clause_id"]` never raises (the formatters always emit the key,
possibly as `None`), so each hit is inserted under its `clause_id` value —
the `None` key included; `r["norm_score"]` is a genuine `KeyError` when
missing. -/
def osMerge : List Hit → Combined → Except String Combined
  | [], m => .ok m
  | r :: rs, m =>
    match r.norm_score with
    | none => .error "KeyError: norm_score"
    | some _ => osMerge rs (dictSet m r.clause_id (osEntry r))

/-- Second loop of `fuse_results`: merge the Qdrant list into `combined`,
again keyed by the hit's `clause_id` value (`None` included, never a
`KeyError`). -/
def qdMerge : List Hit → Combined → Except String Combined
  | [], m => .ok m
  | r :: rs, m =>
    match dictGet m r.clause_id with
    | some ex =>
      match r.norm_score, ex.score, r.score with
      | some _, some _, some _ => qdMerge rs (dictSet m r.clause_id (qdUpdate ex r))
      | _, _, _ => .error "KeyError"
    | none =>
      match r.norm_score with
      | none => .error "KeyError: norm_score"
      | some _ => qdMerge rs (dictSet m r.clause_id (qdNewEntry r))

/-- The join-map phase of `fuse_results`: normalize both lists, seed from
the lexical list, then merge the vector list. -/
def fuseCombined (os_results qdrant_results : List Hit) : Except String Combined := do
  let m ← osMerge (normalize_scores os_results) []
  qdMerge (normalize_scores qdrant_results) m

/-- The hybrid-score loop:
`r["hybrid_score"] = alpha * r["bm25_score"] + (1 - alpha) * r["vec_score"]`,
fallible where a score key is missing. -/
def hybridize (alpha : ℚ) : List Hit → Except String (List Hit)
  | [] => .ok []
  | r :: rs =>
    match r.bm25_score, r.vec_score with
    | some b, some v =>
      (hybridize alpha rs).map
        (fun rest => { r with hybrid_score := some (alpha * b + (1 - alpha) * v) } :: rest)
    | _, _ => .error "KeyError"

/-- Sort relation of the final `sorted(..., key=lambda x: x["hybrid_score"],
reverse=True)`: `a` may precede `b` when `a`'s hybrid score is ≥ `b`'s.
A stable sort under this relation is exactly Python's stable descending
sort. -/
def hybridGe (a b : Hit) : Prop := b.hybrid_score.getD 0 ≤ a.hybrid_score.getD 0

instance : DecidableRel hybridGe :=
  fun a b => inferInstanceAs (Decidable (_ ≤ _))

instance : IsTotal Hit hybridGe := ⟨fun a b => le_total _ _⟩

instance : IsTrans Hit hybridGe := ⟨fun _ _ _ h1 h2 => le_trans h2 h1⟩

/-- `fuse_results` from `hybrid_search.py`. -/
def fuse_results (os_results qdrant_results : List Hit) (alpha : ℚ) (top_k : ℕ) :
    Except String (List Hit) := do
  let m ← fuseCombined os_results qdrant_results
  let vals ← hybridize alpha (m.map (·.2))
  pure ((List.insertionSort hybridGe vals).take top_k)

/-! ### The spec's alternative backend-processing order (for commutativity)

`fuse_results` hard-codes the lexical list as the seed. §4.2/§4.4 of the
spec assert that fusion is commutative in backend-call order, so the
mirror-image merge — vector list processed first — is modelled from the
spec's words and compared with the code's order. -/

/-- Modelled from the spec: the record seeded for a vector hit when the
vector list is processed first (normalized score becomes `vec_score`,
`bm25_score` initializes to 0.0; the record base is the vector hit). -/
def qdSeedEntry (r : Hit) : Hit :=
  { r with vec_score := r.norm_score, bm25_score := some 0 }

/-- Modelled from the spec: overlaying a lexical hit onto an existing
vector-seeded entry — `bm25_score` is overwritten with the lexical
normalized value and the display `score` becomes the max of the two raw
scores. -/
def osOverlayUpdate (ex r : Hit) : Hit :=
  { ex with bm25_score := r.norm_score,
            score := some (max (ex.score.getD 0) (r.score.getD 0)) }

/-- Modelled from the spec: a lexical-only hit inserted during the overlay
pass (`vec_score = 0.0`, lexical highlights preserved). -/
def osNewEntry (r : Hit) : Hit :=
  { r with vec_score := some 0, bm25_score := r.norm_score }

/-- Modelled from the spec: seeding pass over the vector list (mirror image
of `osMerge`). -/
def qdSeedMerge : List Hit → Combined → Except String Combined
  | [], m => .ok m
  | r :: rs, m =>
    match r.norm_score with
    | none => .error "KeyError: norm_score"
    | some _ => qdSeedMerge rs (dictSet m r.clause_id (qdSeedEntry r))

/-- Modelled from the spec: overlay pass over the lexical list (mirror
image of `qdMerge`). -/
def osOverlayMerge : List Hit → Combined → Except String Combined
  | [], m => .ok m
  | r :: rs, m =>
    match dictGet m r.clause_id with
    | some ex =>
      match r.norm_score, ex.score, r.score with
      | some _, some _, some _ =>
        osOverlayMerge rs (dictSet m r.clause_id (osOverlayUpdate ex r))
      | _, _, _ => .error "KeyError"
    | none =>
      match r.norm_score with
      | none => .error "KeyError: norm_score"
      | some _ => osOverlayMerge rs (dictSet m r.clause_id (osNewEntry r))

/-- Modelled from the spec: the join-map phase with the vector list
processed first. -/
def fuseCombinedSwapped (os_results qdrant_results : List Hit) : Except String Combined := do
  let m ← qdSeedMerge (normalize_scores qdrant_results) []
  osOverlayMerge (normalize_scores os_results) m

/-! ### Reranking stage (`reranker.py`) -/

/-- Attaching the oracle's score for the pair
`(query, r.get("text_snippet", ""))` as `reranker_score`
(the `zip(hybrid_results, scores.tolist())` loop). -/
def attachRerankScore (oracle : String → String → ℚ) (query : String) (r : Hit) : Hit :=
  { r with reranker_score := some (oracle query (r.text_snippet.getD "")) }

/-- Sort relation of `sorted(..., key=lambda x: x["reranker_score"],
reverse=True)`. -/
def rerankGe (a b : Hit) : Prop := b.reranker_score.getD 0 ≤ a.reranker_score.getD 0

instance : DecidableRel rerankGe :=
  fun a b => inferInstanceAs (Decidable (_ ≤ _))

instance : IsTotal Hit rerankGe := ⟨fun a b => le_total _ _⟩

instance : IsTrans Hit rerankGe := ⟨fun _ _ _ h1 h2 => le_trans h2 h1⟩

/-- `rerank` from `reranker.py`: score every (query, snippet) pair with the
oracle, attach the scores, stable-sort descending by `reranker_score`, keep
`top_k`. The oracle is a parameter (the cross-encoder model is an external
collaborator). -/
def rerank (oracle : String → String → ℚ) (query : String) (hybrid_results : List Hit)
    (top_k : ℕ) : List Hit :=
  (List.insertionSort rerankGe
    (hybrid_results.map (attachRerankScore oracle query))).take top_k

/-! ### Pipeline orchestrator (`routers/ask.py`) -/

/-- Request payload of the `/ask` endpoint. -/
structure AskPayload where
  query : String
  top_k : ℕ
  alpha : ℚ
  rerank : Bool
deriving DecidableEq, Repr

/-- Response payload of the `/ask` endpoint. -/
structure AskResponse where
  query : String
  top_k : ℕ
  alpha : ℚ
  reranked : Bool
  results : List Hit
deriving DecidableEq, Repr

/-- The `ask` handler: run hybrid search (errors become a request-level
failure), then — only when `payload.rerank` is set — run the reranking
stage, whose error also fails the whole request; `reranked` records whether
reranking completed. The two stages are parameters so that their failure
behaviour can be quantified over. -/
def ask (hybridSearch : String → ℕ → ℚ → Except String (List Hit))
    (rerankStage : String → List Hit → ℕ → Except String (List Hit))
    (payload : AskPayload) : Except String AskResponse :=
  match hybridSearch payload.query payload.top_k payload.alpha with
  | .error e => .error ("Hybrid search failed: " ++ e)
  | .ok hits =>
    if payload.rerank then
      match rerankStage payload.query hits payload.top_k with
      | .error e => .error ("Reranking failed: " ++ e)
      | .ok hits2 =>
        .ok { query := payload.query, top_k := payload.top_k, alpha := payload.alpha,
              reranked := true, results := hits2 }
    else
      .ok { query := payload.query, top_k := payload.top_k, alpha := payload.alpha,
            reranked := false, results := hits }

/-! ### Auxiliary notions used by the verification -/

/-- The well-formedness invariant of the join map: keys are distinct, and
every stored record carries its own key as `clause_id`. -/
def dictWF (m : Combined) : Prop :=
  (dictKeys m).Nodup ∧ ∀ p ∈ m, p.2.clause_id = p.1

/-- The last hit of a list whose `clause_id` equals the join key `k`
(inside one list a later duplicate overwrites an earlier one in the join
map). -/
def lastWith (k : Option String) : List Hit → Option Hit
  | [] => none
  | r :: rs => (lastWith k rs).or (if r.clause_id = k then some r else none)

/-- The effect of one vector hit on the current entry stored for its key. -/
def qdStep (cur : Option Hit) (r : Hit) : Option Hit :=
  match cur with
  | some ex => some (qdUpdate ex r)
  | none => some (qdNewEntry r)

/-- The cumulative effect of the vector-merge loop on the entry of key
`k`. -/
def qdChainK (k : Option String) : Option Hit → List Hit → Option Hit
  | cur, [] => cur
  | cur, r :: rs =>
    if r.clause_id = k then qdChainK k (qdStep cur r) rs else qdChainK k cur rs

/-- The effect of one lexical hit during the spec's swapped-order overlay
pass. -/
def osOverlayStep (cur : Option Hit) (r : Hit) : Option Hit :=
  match cur with
  | some ex => some (osOverlayUpdate ex r)
  | none => some (osNewEntry r)

/-- The cumulative effect of the swapped-order overlay pass on the entry of
key `k`. -/
def osChainK (k : Option String) : Option Hit → List Hit → Option Hit
  | cur, [] => cur
  | cur, r :: rs =>
    if r.clause_id = k then osChainK k (osOverlayStep cur r) rs else osChainK k cur rs

/-- The min-max rescaled value `(raw - min) / (max - min)` that
`normalize_scores` assigns in its non-degenerate branch. -/
def normVal (results : List Hit) (r : Hit) : ℚ :=
  (rawScore r - listMin (results.map rawScore)) /
    (listMax (results.map rawScore) - listMin (results.map rawScore))

/-! ### Concrete inputs used by examples, witnesses and counterexamples -/

/-- The spec's §8 example lexical hit `{A, raw=10}`. -/
def exHitA : Hit :=
  { contract_id := some "CT1", clause_id := some "A", heading := some "HA",
    text_snippet := some "text A", score := some 10, highlight := ["em A"] }

/-- The spec's §8 example vector hit `{B, raw=0.9}`. -/
def exHitB : Hit :=
  { contract_id := some "CT1", clause_id := some "B", heading := some "HB",
    text_snippet := some "text B", score := some (9/10) }

/-- The fused record for `exHitA` in the spec's §8 example. -/
def exFusedA : Hit :=
  { exHitA with norm_score := some 1, bm25_score := some 1, vec_score := some 0,
                hybrid_score := some (1/2) }

/-- The fused record for `exHitB` in the spec's §8 example. -/
def exFusedB : Hit :=
  { exHitB with norm_score := some 1, bm25_score := some 0, vec_score := some 1,
                highlight := [], hybrid_score := some (1/2) }

/-- A lexical hit with clause id `c` under contract `X`. -/
def cxOsHit : Hit :=
  { contract_id := some "X", clause_id := some "c", heading := some "HX",
    text_snippet := some "from X", score := some 2, highlight := ["hl X"] }

/-- A vector hit with the same clause id `c` but a different contract
`Y`. -/
def cxQdHit : Hit :=
  { contract_id := some "Y", clause_id := some "c", heading := some "HY",
    text_snippet := some "from Y", score := some 3 }

/-- The single fused map entry produced from `cxOsHit` and `cxQdHit` by the
code's order (lexical seeded first). -/
def cxCombinedEntry : Hit :=
  { cxOsHit with norm_score := some 1, bm25_score := some 1, vec_score := some 1,
                 score := some 3 }

/-- The single fused map entry produced from the same hits by the spec's
swapped order (vector seeded first). -/
def cxSwappedEntry : Hit :=
  { cxQdHit with norm_score := some 1, vec_score := some 1, bm25_score := some 1,
                 score := some 3 }

/-- The single fused output hit for `cxOsHit`/`cxQdHit` at `alpha = 0.5`. -/
def cxFused : Hit :=
  { cxCombinedEntry with hybrid_score := some 1 }

/-- Two lexical hits sharing the clause id `c` (duplicate key in one
list). -/
def dupHit1 : Hit :=
  { contract_id := some "X", clause_id := some "c", score := some 1, norm_score := some 1 }

/-- A later duplicate of clause id `c` with different scores. -/
def dupHit2 : Hit :=
  { contract_id := some "X", clause_id := some "c", score := some 4, norm_score := some (1/3) }

/-- A malformed lexical hit as the formatters actually produce it: the
`"clause_id"` key is present with value `None`. -/
def noneKeyOsHit : Hit :=
  { contract_id := some "X", clause_id := none, heading := some "HX",
    text_snippet := some "from X", score := some 2, highlight := ["hl X"] }

/-- A malformed vector hit with the same `None` join key but another
contract. -/
def noneKeyQdHit : Hit :=
  { contract_id := some "Y", clause_id := none, heading := some "HY",
    text_snippet := some "from Y", score := some 3 }

/-- The single fused entry the code produces from the two malformed hits:
both are silently merged under the `None` join key. -/
def noneKeyFused : Hit :=
  { noneKeyOsHit with norm_score := some 1, bm25_score := some 1, vec_score := some 1,
                      score := some 3, hybrid_score := some 1 }

/-- A hybrid-search stage that succeeds with one fixed hit. -/
def hsOk : String → ℕ → ℚ → Except String (List Hit) :=
  fun _ _ _ => .ok [exHitA]

/-- A reranking stage that always fails (an unavailable oracle). -/
def rrFail : String → List Hit → ℕ → Except String (List Hit) :=
  fun _ _ _ => .error "oracle down"

/-- A reranking stage that succeeds but returns a fixed different list. -/
def rrOk : String → List Hit → ℕ → Except String (List Hit) :=
  fun _ _ _ => .ok [exHitB]

/-- A payload with the rerank flag set. -/
def payloadRerank : AskPayload := { query := "q", top_k := 5, alpha := 1/2, rerank := true }

/-- A payload with the rerank flag unset. -/
def payloadPlain : AskPayload := { query := "q", top_k := 5, alpha := 1/2, rerank := false }

/-! ### Lemmas about Python `min`/`max` over a score list -/

theorem foldl_min_le_init (xs : List ℚ) (x : ℚ) : xs.foldl min x ≤ x := by
  induction xs generalizing x with
  | nil => simp
  | cons y ys ih => exact le_trans (ih (min x y)) (min_le_left x y)

theorem foldl_min_le_of_mem {s : ℚ} {xs : List ℚ} (x : ℚ) (h : s ∈ xs) :
    xs.foldl min x ≤ s := by
  induction xs generalizing x with
  | nil => cases h
  | cons y ys ih =>
    rcases List.mem_cons.1 h with rfl | h'
    · exact le_trans (foldl_min_le_init ys (min x s)) (min_le_right x s)
    · exact ih (min x y) h'

theorem foldl_min_mem (xs : List ℚ) (x : ℚ) : xs.foldl min x = x ∨ xs.foldl min x ∈ xs := by
  induction xs generalizing x with
  | nil => exact Or.inl rfl
  | cons y ys ih =>
    rcases ih (min x y) with h | h
    · rcases min_choice x y with hm | hm
      · exact Or.inl (h.trans hm)
      · exact Or.inr (List.mem_cons.2 (Or.inl (h.trans hm)))
    · exact Or.inr (List.mem_cons.2 (Or.inr h))

theorem le_foldl_max_init (xs : List ℚ) (x : ℚ) : x ≤ xs.foldl max x := by
  induction xs generalizing x with
  | nil => simp
  | cons y ys ih => exact le_trans (le_max_left x y) (ih (max x y))

theorem le_foldl_max_of_mem {s : ℚ} {xs : List ℚ} (x : ℚ) (h : s ∈ xs) :
    s ≤ xs.foldl max x := by
  induction xs generalizing x with
  | nil => cases h
  | cons y ys ih =>
    rcases List.mem_cons.1 h with rfl | h'
    · exact le_trans (le_max_right x s) (le_foldl_max_init ys (max x s))
    · exact ih (max x y) h'

theorem foldl_max_mem (xs : List ℚ) (x : ℚ) : xs.foldl max x = x ∨ xs.foldl max x ∈ xs := by
  induction xs generalizing x with
  | nil => exact Or.inl rfl
  | cons y ys ih =>
    rcases ih (max x y) with h | h
    · rcases max_choice x y with hm | hm
      · exact Or.inl (h.trans hm)
      · exact Or.inr (List.mem_cons.2 (Or.inl (h.trans hm)))
    · exact Or.inr (List.mem_cons.2 (Or.inr h))

theorem listMin_le_of_mem {s : ℚ} {l : List ℚ} (h : s ∈ l) : listMin l ≤ s := by
  cases l with
  | nil => cases h
  | cons x xs =>
    rcases List.mem_cons.1 h with rfl | h'
    · exact foldl_min_le_init xs s
    · exact foldl_min_le_of_mem x h'

theorem le_listMax_of_mem {s : ℚ} {l : List ℚ} (h : s ∈ l) : s ≤ listMax l := by
  cases l with
  | nil => cases h
  | cons x xs =>
    rcases List.mem_cons.1 h with rfl | h'
    · exact le_foldl_max_init xs s
    · exact le_foldl_max_of_mem x h'

theorem listMin_mem {l : List ℚ} (h : l ≠ []) : listMin l ∈ l := by
  cases l with
  | nil => exact absurd rfl h
  | cons x xs =>
    show xs.foldl min x ∈ x :: xs
    rcases foldl_min_mem xs x with h' | h'
    · rw [h']; exact List.mem_cons_self _ _
    · exact List.mem_cons.2 (Or.inr h')

theorem listMax_mem {l : List ℚ} (h : l ≠ []) : listMax l ∈ l := by
  cases l with
  | nil => exact absurd rfl h
  | cons x xs =>
    show xs.foldl max x ∈ x :: xs
    rcases foldl_max_mem xs x with h' | h'
    · rw [h']; exact List.mem_cons_self _ _
    · exact List.mem_cons.2 (Or.inr h')

/-! ### Lemmas about `normalize_scores` -/

theorem normalize_scores_eq_const {results : List Hit} (hne : results ≠ [])
    (heq : listMin (results.map rawScore) = listMax (results.map rawScore)) :
    normalize_scores results = results.map (fun r => { r with norm_score := some 1 }) := by
  cases results with
  | nil => exact absurd rfl hne
  | cons r rs => simp only [normalize_scores, heq, if_pos]

theorem normalize_scores_eq_scale {results : List Hit}
    (hne : listMin (results.map rawScore) ≠ listMax (results.map rawScore)) :
    normalize_scores results =
      results.map (fun r =>
        { r with norm_score := some ((rawScore r - listMin (results.map rawScore)) /
            (listMax (results.map rawScore) - listMin (results.map rawScore))) }) := by
  cases results with
  | nil => exact absurd rfl hne
  | cons r rs => simp only [normalize_scores, hne, if_neg, ite_false, reduceIte]

/-- Normalization rewrites only `norm_score`: the clause ids, in order, are
untouched. -/
theorem normalize_scores_clause_ids (results : List Hit) :
    (normalize_scores results).map (·.clause_id) = results.map (·.clause_id) := by
  cases results with
  | nil => rfl
  | cons r rs =>
    simp only [normalize_scores]
    split <;> simp

/-! ### Lemmas about the join map -/

theorem dictGet_dictSet_self (m : Combined) (k : Option String) (v : Hit) :
    dictGet (dictSet m k v) k = some v := by
  induction m with
  | nil => simp [dictSet, dictGet]
  | cons p m ih =>
    by_cases h : p.1 = k
    · simp [dictSet, dictGet, h]
    · simp [dictSet, dictGet, h, ih]

theorem dictGet_dictSet_ne (m : Combined) {k k' : Option String} (v : Hit) (h : k' ≠ k) :
    dictGet (dictSet m k v) k' = dictGet m k' := by
  induction m with
  | nil => simp [dictSet, dictGet, Ne.symm h]
  | cons p m ih =>
    by_cases hp : p.1 = k
    · subst hp
      simp [dictSet, dictGet, Ne.symm h, fun hh => h (hh : k' = p.1)]
    · by_cases hp' : p.1 = k'
      · simp [dictSet, dictGet, hp, hp', h]
      · simp [dictSet, dictGet, hp, hp', ih]

theorem dictKeys_dictSet (m : Combined) (k : Option String) (v : Hit) :
    dictKeys (dictSet m k v) =
      if k ∈ dictKeys m then dictKeys m else dictKeys m ++ [k] := by
  induction m with
  | nil => simp [dictSet, dictKeys]
  | cons p m ih =>
    by_cases h : p.1 = k
    · simp [dictSet, dictKeys, h]
    · have hne : ¬ k = p.1 := fun hh => h hh.symm
      have h1 : dictKeys (dictSet (p :: m) k v) = p.1 :: dictKeys (dictSet m k v) := by
        simp [dictSet, if_neg h, dictKeys]
      have h2 : dictKeys (p :: m) = p.1 :: dictKeys m := rfl
      rw [h1, ih, h2]
      by_cases hk : k ∈ dictKeys m <;> simp [hk, hne]

theorem dictKeys_nodup_dictSet {m : Combined} (k : Option String) (v : Hit)
    (h : (dictKeys m).Nodup) : (dictKeys (dictSet m k v)).Nodup := by
  rw [dictKeys_dictSet]
  by_cases hk : k ∈ dictKeys m
  · simpa [hk] using h
  · simp [hk, List.nodup_append, h]

theorem mem_of_dictGet {m : Combined} {k : Option String} {v : Hit}
    (h : dictGet m k = some v) : (k, v) ∈ m := by
  induction m with
  | nil => simp [dictGet] at h
  | cons p m ih =>
    obtain ⟨a, b⟩ := p
    by_cases hp : a = k
    · simp only [dictGet, if_pos hp] at h
      have hv : b = v := Option.some.inj h
      subst hp; subst hv
      exact List.mem_cons_self _ _
    · simp only [dictGet, if_neg hp] at h
      exact List.mem_cons.2 (Or.inr (ih h))

theorem dictGet_isSome_iff_mem_keys (m : Combined) (k : Option String) :
    (dictGet m k).isSome ↔ k ∈ dictKeys m := by
  induction m with
  | nil => simp [dictGet, dictKeys]
  | cons p m ih =>
    by_cases hp : p.1 = k
    · simp [dictGet, dictKeys, hp]
    · have hnk : ¬ k = p.1 := fun hh => hp hh.symm
      simp [dictGet, dictKeys, hp, hnk, ih]

theorem dictWF_nil : dictWF [] := ⟨List.nodup_nil, by simp⟩

theorem dictWF_dictSet {m : Combined} {k : Option String} {v : Hit}
    (hm : dictWF m) (hv : v.clause_id = k) : dictWF (dictSet m k v) := by
  refine ⟨dictKeys_nodup_dictSet k v hm.1, ?_⟩
  intro p hp
  induction m with
  | nil =>
    simp only [dictSet] at hp
    rcases List.mem_singleton.1 hp with rfl
    exact hv
  | cons q m ih =>
    by_cases hq : q.1 = k
    · simp only [dictSet, if_pos hq] at hp
      rcases List.mem_cons.1 hp with rfl | hp'
      · exact hv
      · exact hm.2 _ (List.mem_cons.2 (Or.inr hp'))
    · simp only [dictSet, if_neg hq] at hp
      rcases List.mem_cons.1 hp with rfl | hp'
      · exact hm.2 _ (List.mem_cons.2 (Or.inl rfl))
      · exact ih ⟨(List.nodup_cons.1 hm.1).2, fun r hr => hm.2 _ (List.mem_cons.2 (Or.inr hr))⟩ hp'

theorem dictGet_of_mem_of_wf {m : Combined} {k : Option String} {v : Hit}
    (hwf : (dictKeys m).Nodup) (h : (k, v) ∈ m) : dictGet m k = some v := by
  induction m with
  | nil => cases h
  | cons p m ih =>
    have hcons : dictKeys (p :: m) = p.1 :: dictKeys m := rfl
    rw [hcons] at hwf
    rcases List.mem_cons.1 h with rfl | h'
    · simp [dictGet]
    · have hk : k ∈ dictKeys m := List.mem_map.2 ⟨(k, v), h', rfl⟩
      have hp : p.1 ≠ k := by
        intro hh
        subst hh
        exact (List.nodup_cons.1 hwf).1 hk
      simp only [dictGet, if_neg hp]
      exact ih (List.nodup_cons.1 hwf).2 h'

/-! ### Characterization of the merge loops -/

theorem osMerge_get {l : List Hit} {m m' : Combined} (h : osMerge l m = .ok m')
    (k : Option String) :
    dictGet m' k =
      match lastWith k l with
      | some r => some (osEntry r)
      | none => dictGet m k := by
  induction l generalizing m with
  | nil =>
    simp only [osMerge, Except.ok.injEq] at h
    subst h
    rfl
  | cons r rs ih =>
    cases hn : r.norm_score with
    | none => simp [osMerge, hn] at h
    | some ns =>
      simp only [osMerge, hn] at h
      rw [ih h]
      cases hl : lastWith k rs with
      | some hlast => simp [lastWith, hl, Option.or]
      | none =>
        simp only [lastWith, hl, Option.or]
        by_cases hk : r.clause_id = k
        · subst hk
          simp [dictGet_dictSet_self]
        · rw [dictGet_dictSet_ne m _ (fun hh => hk hh.symm)]
          simp [hk]

theorem qdSeedMerge_get {l : List Hit} {m m' : Combined} (h : qdSeedMerge l m = .ok m')
    (k : Option String) :
    dictGet m' k =
      match lastWith k l with
      | some r => some (qdSeedEntry r)
      | none => dictGet m k := by
  induction l generalizing m with
  | nil =>
    simp only [qdSeedMerge, Except.ok.injEq] at h
    subst h
    rfl
  | cons r rs ih =>
    cases hn : r.norm_score with
    | none => simp [qdSeedMerge, hn] at h
    | some ns =>
      simp only [qdSeedMerge, hn] at h
      rw [ih h]
      cases hl : lastWith k rs with
      | some hlast => simp [lastWith, hl, Option.or]
      | none =>
        simp only [lastWith, hl, Option.or]
        by_cases hk : r.clause_id = k
        · subst hk
          simp [dictGet_dictSet_self]
        · rw [dictGet_dictSet_ne m _ (fun hh => hk hh.symm)]
          simp [hk]

theorem qdMerge_get {l : List Hit} {m m' : Combined} (h : qdMerge l m = .ok m')
    (k : Option String) :
    dictGet m' k = qdChainK k (dictGet m k) l := by
  induction l generalizing m with
  | nil =>
    simp only [qdMerge, Except.ok.injEq] at h
    subst h
    rfl
  | cons r rs ih =>
    cases hex : dictGet m r.clause_id with
    | some ex =>
      cases hn : r.norm_score with
      | none => simp [qdMerge, hex, hn] at h
      | some ns =>
        cases hes : ex.score with
        | none => simp [qdMerge, hex, hn, hes] at h
        | some es =>
          cases hrs : r.score with
          | none => simp [qdMerge, hex, hn, hes, hrs] at h
          | some rsc =>
            simp only [qdMerge, hex, hn, hes, hrs] at h
            rw [ih h]
            by_cases hk : r.clause_id = k
            · subst hk
              have hstep : qdChainK r.clause_id (dictGet m r.clause_id) (r :: rs) =
                  qdChainK r.clause_id (qdStep (dictGet m r.clause_id) r) rs := by
                simp [qdChainK]
              rw [hstep, dictGet_dictSet_self, hex]
              rfl
            · have hstep : qdChainK k (dictGet m k) (r :: rs) =
                  qdChainK k (dictGet m k) rs := by
                simp [qdChainK, hk]
              rw [hstep, dictGet_dictSet_ne m _ (fun hh => hk hh.symm)]
    | none =>
      cases hn : r.norm_score with
      | none => simp [qdMerge, hex, hn] at h
      | some ns =>
        simp only [qdMerge, hex, hn] at h
        rw [ih h]
        by_cases hk : r.clause_id = k
        · subst hk
          have hstep : qdChainK r.clause_id (dictGet m r.clause_id) (r :: rs) =
              qdChainK r.clause_id (qdStep (dictGet m r.clause_id) r) rs := by
            simp [qdChainK]
          rw [hstep, dictGet_dictSet_self, hex]
          rfl
        · have hstep : qdChainK k (dictGet m k) (r :: rs) =
              qdChainK k (dictGet m k) rs := by
            simp [qdChainK, hk]
          rw [hstep, dictGet_dictSet_ne m _ (fun hh => hk hh.symm)]

theorem osOverlayMerge_get {l : List Hit} {m m' : Combined} (h : osOverlayMerge l m = .ok m')
    (k : Option String) :
    dictGet m' k = osChainK k (dictGet m k) l := by
  induction l generalizing m with
  | nil =>
    simp only [osOverlayMerge, Except.ok.injEq] at h
    subst h
    rfl
  | cons r rs ih =>
    cases hex : dictGet m r.clause_id with
    | some ex =>
      cases hn : r.norm_score with
      | none => simp [osOverlayMerge, hex, hn] at h
      | some ns =>
        cases hes : ex.score with
        | none => simp [osOverlayMerge, hex, hn, hes] at h
        | some es =>
          cases hrs : r.score with
          | none => simp [osOverlayMerge, hex, hn, hes, hrs] at h
          | some rsc =>
            simp only [osOverlayMerge, hex, hn, hes, hrs] at h
            rw [ih h]
            by_cases hk : r.clause_id = k
            · subst hk
              have hstep : osChainK r.clause_id (dictGet m r.clause_id) (r :: rs) =
                  osChainK r.clause_id (osOverlayStep (dictGet m r.clause_id) r) rs := by
                simp [osChainK]
              rw [hstep, dictGet_dictSet_self, hex]
              rfl
            · have hstep : osChainK k (dictGet m k) (r :: rs) =
                  osChainK k (dictGet m k) rs := by
                simp [osChainK, hk]
              rw [hstep, dictGet_dictSet_ne m _ (fun hh => hk hh.symm)]
    | none =>
      cases hn : r.norm_score with
      | none => simp [osOverlayMerge, hex, hn] at h
      | some ns =>
        simp only [osOverlayMerge, hex, hn] at h
        rw [ih h]
        by_cases hk : r.clause_id = k
        · subst hk
          have hstep : osChainK r.clause_id (dictGet m r.clause_id) (r :: rs) =
              osChainK r.clause_id (osOverlayStep (dictGet m r.clause_id) r) rs := by
            simp [osChainK]
          rw [hstep, dictGet_dictSet_self, hex]
          rfl
        · have hstep : osChainK k (dictGet m k) (r :: rs) =
              osChainK k (dictGet m k) rs := by
            simp [osChainK, hk]
          rw [hstep, dictGet_dictSet_ne m _ (fun hh => hk hh.symm)]

/-! ### Properties of `lastWith` and the per-key chains -/

theorem lastWith_isSome_iff {k : Option String} {l : List Hit} :
    (lastWith k l).isSome ↔ ∃ r ∈ l, r.clause_id = k := by
  induction l with
  | nil => simp [lastWith]
  | cons r rs ih =>
    cases hl : lastWith k rs with
    | some hh =>
      obtain ⟨r', hr', hck⟩ := ih.1 (by simp [hl])
      simp only [lastWith, hl, Option.or, Option.isSome_some, true_iff]
      exact ⟨r', List.mem_cons.2 (Or.inr hr'), hck⟩
    | none =>
      simp only [lastWith, hl, Option.or]
      by_cases hck : r.clause_id = k
      · simp only [if_pos hck, Option.isSome_some, true_iff]
        exact ⟨r, List.mem_cons.2 (Or.inl rfl), hck⟩
      · rw [if_neg hck]
        simp only [Option.isSome_none, Bool.false_eq_true, false_iff]
        rintro ⟨r', hr', hc⟩
        rcases List.mem_cons.1 hr' with rfl | hr''
        · exact hck hc
        · have h2 : (lastWith k rs).isSome := ih.2 ⟨r', hr'', hc⟩
          rw [hl] at h2
          simp at h2

theorem lastWith_none_no_match {k : Option String} {l : List Hit} (h : lastWith k l = none) :
    ∀ r ∈ l, r.clause_id ≠ k := by
  intro r hr hc
  have h2 : (lastWith k l).isSome := lastWith_isSome_iff.2 ⟨r, hr, hc⟩
  rw [h] at h2
  simp at h2

theorem qdChainK_of_no_match {k : Option String} {l : List Hit} (cur : Option Hit)
    (h : ∀ r ∈ l, r.clause_id ≠ k) : qdChainK k cur l = cur := by
  induction l generalizing cur with
  | nil => rfl
  | cons r rs ih =>
    simp only [qdChainK, if_neg (h r (List.mem_cons_self _ _))]
    exact ih cur (fun r' hr' => h r' (List.mem_cons.2 (Or.inr hr')))

theorem qdChainK_some {k : Option String} {l : List Hit} (ex : Hit) :
    ∃ out, qdChainK k (some ex) l = some out := by
  induction l generalizing ex with
  | nil => exact ⟨ex, rfl⟩
  | cons r rs ih =>
    by_cases hc : r.clause_id = k
    · simp only [qdChainK, if_pos hc, qdStep]
      exact ih (qdUpdate ex r)
    · simp only [qdChainK, if_neg hc]
      exact ih ex

theorem qdChainK_bm25_of_some {k : Option String} {l : List Hit} {ex out : Hit}
    (h : qdChainK k (some ex) l = some out) : out.bm25_score = ex.bm25_score := by
  induction l generalizing ex with
  | nil =>
    simp only [qdChainK] at h
    rw [← Option.some.inj h]
  | cons r rs ih =>
    by_cases hc : r.clause_id = k
    · simp only [qdChainK, if_pos hc, qdStep] at h
      rw [ih h]
      rfl
    · simp only [qdChainK, if_neg hc] at h
      exact ih h

theorem qdChainK_vec_last {k : Option String} {l : List Hit} {hh out : Hit}
    (hl : lastWith k l = some hh) {cur : Option Hit}
    (h : qdChainK k cur l = some out) : out.vec_score = hh.norm_score := by
  induction l generalizing cur with
  | nil => simp [lastWith] at hl
  | cons r rs ih =>
    cases hrest : lastWith k rs with
    | some h2 =>
      have hl2 : h2 = hh := by
        rw [lastWith, hrest] at hl
        exact Option.some.inj hl
      subst hl2
      by_cases hc : r.clause_id = k
      · simp only [qdChainK, if_pos hc] at h
        exact ih hrest h
      · simp only [qdChainK, if_neg hc] at h
        exact ih hrest h
    | none =>
      rw [lastWith, hrest] at hl
      simp only [Option.or] at hl
      by_cases hc : r.clause_id = k
      · rw [if_pos hc] at hl
        have hr : r = hh := Option.some.inj hl
        subst hr
        simp only [qdChainK, if_pos hc] at h
        rw [qdChainK_of_no_match _ (lastWith_none_no_match hrest)] at h
        cases cur with
        | some ex =>
          simp only [qdStep] at h
          rw [← Option.some.inj h]
          rfl
        | none =>
          simp only [qdStep] at h
          rw [← Option.some.inj h]
          rfl
      · rw [if_neg hc] at hl
        cases hl

theorem qdChainK_bm25_of_none {k : Option String} {l : List Hit} {out : Hit}
    (h : qdChainK k none l = some out) : out.bm25_score = some 0 := by
  induction l with
  | nil => simp only [qdChainK] at h; cases h
  | cons r rs ih =>
    by_cases hc : r.clause_id = k
    · simp only [qdChainK, if_pos hc, qdStep] at h
      rw [qdChainK_bm25_of_some h]
      rfl
    · simp only [qdChainK, if_neg hc] at h
      exact ih h

theorem qdChainK_isSome_iff {k : Option String} {l : List Hit} {cur : Option Hit} :
    (qdChainK k cur l).isSome ↔ cur.isSome ∨ ∃ r ∈ l, r.clause_id = k := by
  induction l generalizing cur with
  | nil => simp [qdChainK]
  | cons r rs ih =>
    by_cases hc : r.clause_id = k
    · simp only [qdChainK, if_pos hc]
      cases cur with
      | some ex =>
        obtain ⟨out, hout⟩ := qdChainK_some (k := k) (l := rs) (qdUpdate ex r)
        simp only [qdStep, hout, Option.isSome_some, true_iff]
        exact Or.inl trivial
      | none =>
        obtain ⟨out, hout⟩ := qdChainK_some (k := k) (l := rs) (qdNewEntry r)
        simp only [qdStep, hout, Option.isSome_some, true_iff]
        exact Or.inr ⟨r, List.mem_cons.2 (Or.inl rfl), hc⟩
    · simp only [qdChainK, if_neg hc, ih]
      constructor
      · rintro (h | ⟨r', hr', hck⟩)
        · exact Or.inl h
        · exact Or.inr ⟨r', List.mem_cons.2 (Or.inr hr'), hck⟩
      · rintro (h | ⟨r', hr', hck⟩)
        · exact Or.inl h
        · rcases List.mem_cons.1 hr' with rfl | hr''
          · exact absurd hck hc
          · exact Or.inr ⟨r', hr'', hck⟩

theorem osChainK_of_no_match {k : Option String} {l : List Hit} (cur : Option Hit)
    (h : ∀ r ∈ l, r.clause_id ≠ k) : osChainK k cur l = cur := by
  induction l generalizing cur with
  | nil => rfl
  | cons r rs ih =>
    simp only [osChainK, if_neg (h r (List.mem_cons_self _ _))]
    exact ih cur (fun r' hr' => h r' (List.mem_cons.2 (Or.inr hr')))

theorem osChainK_vec_of_some {k : Option String} {l : List Hit} {ex out : Hit}
    (h : osChainK k (some ex) l = some out) : out.vec_score = ex.vec_score := by
  induction l generalizing ex with
  | nil =>
    simp only [osChainK] at h
    rw [← Option.some.inj h]
  | cons r rs ih =>
    by_cases hc : r.clause_id = k
    · simp only [osChainK, if_pos hc, osOverlayStep] at h
      rw [ih h]
      rfl
    · simp only [osChainK, if_neg hc] at h
      exact ih h

theorem osChainK_bm25_last {k : Option String} {l : List Hit} {hh out : Hit}
    (hl : lastWith k l = some hh) {cur : Option Hit}
    (h : osChainK k cur l = some out) : out.bm25_score = hh.norm_score := by
  induction l generalizing cur with
  | nil => simp [lastWith] at hl
  | cons r rs ih =>
    cases hrest : lastWith k rs with
    | some h2 =>
      have hl2 : h2 = hh := by
        rw [lastWith, hrest] at hl
        exact Option.some.inj hl
      subst hl2
      by_cases hc : r.clause_id = k
      · simp only [osChainK, if_pos hc] at h
        exact ih hrest h
      · simp only [osChainK, if_neg hc] at h
        exact ih hrest h
    | none =>
      rw [lastWith, hrest] at hl
      simp only [Option.or] at hl
      by_cases hc : r.clause_id = k
      · rw [if_pos hc] at hl
        have hr : r = hh := Option.some.inj hl
        subst hr
        simp only [osChainK, if_pos hc] at h
        rw [osChainK_of_no_match _ (lastWith_none_no_match hrest)] at h
        cases cur with
        | some ex =>
          simp only [osOverlayStep] at h
          rw [← Option.some.inj h]
          rfl
        | none =>
          simp only [osOverlayStep] at h
          rw [← Option.some.inj h]
          rfl
      · rw [if_neg hc] at hl
        cases hl

theorem osChainK_vec_of_none {k : Option String} {l : List Hit} {out : Hit}
    (h : osChainK k none l = some out) : out.vec_score = some 0 := by
  induction l with
  | nil => simp only [osChainK] at h; cases h
  | cons r rs ih =>
    by_cases hc : r.clause_id = k
    · simp only [osChainK, if_pos hc, osOverlayStep] at h
      rw [osChainK_vec_of_some h]
      rfl
    · simp only [osChainK, if_neg hc] at h
      exact ih h

/-! ### Invariant preservation of the merges -/

theorem osMerge_wf {l : List Hit} {m m' : Combined} (hwf : dictWF m)
    (h : osMerge l m = .ok m') : dictWF m' := by
  induction l generalizing m with
  | nil =>
    simp only [osMerge, Except.ok.injEq] at h
    exact h ▸ hwf
  | cons r rs ih =>
    cases hn : r.norm_score with
    | none => simp [osMerge, hn] at h
    | some ns =>
      simp only [osMerge, hn] at h
      exact ih (dictWF_dictSet hwf (rfl : (osEntry r).clause_id = r.clause_id)) h

theorem qdMerge_wf {l : List Hit} {m m' : Combined} (hwf : dictWF m)
    (h : qdMerge l m = .ok m') : dictWF m' := by
  induction l generalizing m with
  | nil =>
    simp only [qdMerge, Except.ok.injEq] at h
    exact h ▸ hwf
  | cons r rs ih =>
    cases hex : dictGet m r.clause_id with
    | some ex =>
      cases hn : r.norm_score with
      | none => simp [qdMerge, hex, hn] at h
      | some ns =>
        cases hes : ex.score with
        | none => simp [qdMerge, hex, hn, hes] at h
        | some es =>
          cases hrs : r.score with
          | none => simp [qdMerge, hex, hn, hes, hrs] at h
          | some rsc =>
            simp only [qdMerge, hex, hn, hes, hrs] at h
            have hexc : ex.clause_id = r.clause_id := hwf.2 _ (mem_of_dictGet hex)
            exact ih (dictWF_dictSet hwf
              (show (qdUpdate ex r).clause_id = r.clause_id from hexc)) h
    | none =>
      cases hn : r.norm_score with
      | none => simp [qdMerge, hex, hn] at h
      | some ns =>
        simp only [qdMerge, hex, hn] at h
        exact ih (dictWF_dictSet hwf
          (rfl : (qdNewEntry r).clause_id = r.clause_id)) h

/-! ### Properties of the hybrid-score loop -/

theorem hybridize_mem {alpha : ℚ} {l out : List Hit} (h : hybridize alpha l = .ok out)
    {r' : Hit} (hr : r' ∈ out) :
    ∃ r₀ ∈ l, ∃ b v, r₀.bm25_score = some b ∧ r₀.vec_score = some v ∧
      r' = { r₀ with hybrid_score := some (alpha * b + (1 - alpha) * v) } := by
  induction l generalizing out with
  | nil =>
    simp only [hybridize, Except.ok.injEq] at h
    rw [← h] at hr
    cases hr
  | cons r rs ih =>
    cases hb : r.bm25_score with
    | none => simp [hybridize, hb] at h
    | some b =>
      cases hv : r.vec_score with
      | none => simp [hybridize, hb, hv] at h
      | some v =>
        simp only [hybridize, hb, hv] at h
        cases hrest : hybridize alpha rs with
        | error e => rw [hrest] at h; cases h
        | ok rest =>
          rw [hrest] at h
          simp only [Except.map, Except.ok.injEq] at h
          rw [← h] at hr
          rcases List.mem_cons.1 hr with rfl | hr'
          · exact ⟨r, List.mem_cons.2 (Or.inl rfl), b, v, hb, hv, by rw [hb, hv]⟩
          · obtain ⟨r₀, hr₀, b', v', hb', hv', heq⟩ := ih hrest hr'
            exact ⟨r₀, List.mem_cons.2 (Or.inr hr₀), b', v', hb', hv', heq⟩

theorem hybridize_clause_ids {alpha : ℚ} {l out : List Hit}
    (h : hybridize alpha l = .ok out) :
    out.map (·.clause_id) = l.map (·.clause_id) := by
  induction l generalizing out with
  | nil =>
    simp only [hybridize, Except.ok.injEq] at h
    rw [← h]
  | cons r rs ih =>
    cases hb : r.bm25_score with
    | none => simp [hybridize, hb] at h
    | some b =>
      cases hv : r.vec_score with
      | none => simp [hybridize, hb, hv] at h
      | some v =>
        simp only [hybridize, hb, hv] at h
        cases hrest : hybridize alpha rs with
        | error e => rw [hrest] at h; cases h
        | ok rest =>
          rw [hrest] at h
          simp only [Except.map, Except.ok.injEq] at h
          rw [← h]
          simp only [List.map_cons]
          rw [ih hrest]

/-! ### Normalization preserves the multiset of clause ids -/

theorem exists_clause_id_normalize_iff {l : List Hit} {c : Option String} :
    (∃ r ∈ normalize_scores l, r.clause_id = c) ↔ (∃ r ∈ l, r.clause_id = c) := by
  constructor
  · rintro ⟨r, hr, hc⟩
    have h1 : c ∈ l.map (·.clause_id) := by
      rw [← normalize_scores_clause_ids]
      exact List.mem_map.2 ⟨r, hr, hc⟩
    obtain ⟨r', hr', hc'⟩ := List.mem_map.1 h1
    exact ⟨r', hr', hc'⟩
  · rintro ⟨r, hr, hc⟩
    have h1 : c ∈ (normalize_scores l).map (·.clause_id) := by
      rw [normalize_scores_clause_ids]
      exact List.mem_map.2 ⟨r, hr, hc⟩
    obtain ⟨r', hr', hc'⟩ := List.mem_map.1 h1
    exact ⟨r', hr', hc'⟩

theorem osChainK_some {k : Option String} {l : List Hit} (ex : Hit) :
    ∃ out, osChainK k (some ex) l = some out := by
  induction l generalizing ex with
  | nil => exact ⟨ex, rfl⟩
  | cons r rs ih =>
    by_cases hc : r.clause_id = k
    · simp only [osChainK, if_pos hc, osOverlayStep]
      exact ih (osOverlayUpdate ex r)
    · simp only [osChainK, if_neg hc]
      exact ih ex

/-- Successful runs of `fuseCombined` decompose into the two merge
passes. -/
theorem fuseCombined_eq_ok {os qd : List Hit} {m : Combined}
    (h : fuseCombined os qd = .ok m) :
    ∃ m1, osMerge (normalize_scores os) [] = .ok m1 ∧
      qdMerge (normalize_scores qd) m1 = .ok m := by
  simp only [fuseCombined, bind, Except.bind] at h
  split at h
  · exact absurd h (by simp)
  · rename_i m1 hm1
    exact ⟨m1, hm1, h⟩

/-- Successful runs of `fuseCombinedSwapped` decompose into the two merge
passes. -/
theorem fuseCombinedSwapped_eq_ok {os qd : List Hit} {m : Combined}
    (h : fuseCombinedSwapped os qd = .ok m) :
    ∃ m2, qdSeedMerge (normalize_scores qd) [] = .ok m2 ∧
      osOverlayMerge (normalize_scores os) m2 = .ok m := by
  simp only [fuseCombinedSwapped, bind, Except.bind] at h
  split at h
  · exact absurd h (by simp)
  · rename_i m2 hm2
    exact ⟨m2, hm2, h⟩

/-! ### C3 — uniform raw scores normalize to 1.0; empty input passes through -/

/-- C3: the empty hit list is returned empty and unchanged (no error), and
for every non-empty hit list whose raw scores are all equal, normalization
sets every hit's `norm_score` to exactly 1.0 while leaving everything else
(including the order) unchanged. -/
theorem C3_normalize_uniform_and_empty :
    (normalize_scores [] = []) ∧
    ∀ (results : List Hit) (c : ℚ), results ≠ [] →
      (∀ r ∈ results, rawScore r = c) →
      normalize_scores results =
        results.map (fun r => { r with norm_score := some 1 }) := by
  refine ⟨rfl, ?_⟩
  intro results c hne hall
  have hmem : ∀ s ∈ results.map rawScore, s = c := by
    intro s hs
    obtain ⟨r, hr, rfl⟩ := List.mem_map.1 hs
    exact hall r hr
  have hmapne : results.map rawScore ≠ [] := by
    cases results with
    | nil => exact absurd rfl hne
    | cons r rs => simp
  have hminc : listMin (results.map rawScore) = c := hmem _ (listMin_mem hmapne)
  have hmaxc : listMax (results.map rawScore) = c := hmem _ (listMax_mem hmapne)
  exact normalize_scores_eq_const hne (hminc.trans hmaxc.symm)

/-- Witness for C3 at a concrete two-hit list with equal raw scores. -/
theorem C3_witness :
    normalize_scores [exHitA, exHitA] =
      List.map (fun r => { r with norm_score := some 1 }) [exHitA, exHitA] :=
  C3_normalize_uniform_and_empty.2 [exHitA, exHitA] 10 (by simp)
    (by
      intro r hr
      rcases List.mem_cons.1 hr with rfl | hr'
      · rfl
      · rcases List.mem_singleton.1 hr' with rfl
        rfl)

/-! ### C4 — distinct min/max: strict linear min-max rescaling -/

/-- C4: when the raw scores have distinct minimum and maximum,
normalization maps each hit in place (order unchanged) to
`(raw − min)/(max − min)`; every normalized value lies in `[0,1]`, the map
is monotone in the raw score, the maximum raw score maps to 1.0 and the
minimum to 0.0. -/
theorem C4_normalize_minmax_rescale (results : List Hit)
    (hd : listMin (results.map rawScore) ≠ listMax (results.map rawScore)) :
    (normalize_scores results =
        results.map (fun r => { r with norm_score := some (normVal results r) })) ∧
    (∀ r ∈ results, 0 ≤ normVal results r ∧ normVal results r ≤ 1) ∧
    (∀ r1 ∈ results, ∀ r2 ∈ results,
        rawScore r1 ≤ rawScore r2 → normVal results r1 ≤ normVal results r2) ∧
    (∀ r ∈ results, rawScore r = listMax (results.map rawScore) → normVal results r = 1) ∧
    (∀ r ∈ results, rawScore r = listMin (results.map rawScore) → normVal results r = 0) := by
  have hne : results ≠ [] := by
    intro hnil
    subst hnil
    exact hd rfl
  have hmapne : results.map rawScore ≠ [] := by
    cases results with
    | nil => exact absurd rfl hne
    | cons r rs => simp
  have hminmem := listMin_mem hmapne
  have hle : listMin (results.map rawScore) ≤ listMax (results.map rawScore) :=
    le_listMax_of_mem hminmem
  have hlt : listMin (results.map rawScore) < listMax (results.map rawScore) :=
    lt_of_le_of_ne hle hd
  have hpos : 0 < listMax (results.map rawScore) - listMin (results.map rawScore) :=
    sub_pos.2 hlt
  refine ⟨normalize_scores_eq_scale hd, ?_, ?_, ?_, ?_⟩
  · intro r hr
    have hmem : rawScore r ∈ results.map rawScore := List.mem_map.2 ⟨r, hr, rfl⟩
    constructor
    · exact div_nonneg (sub_nonneg.2 (listMin_le_of_mem hmem)) (le_of_lt hpos)
    · rw [normVal, div_le_one hpos]
      exact sub_le_sub_right (le_listMax_of_mem hmem) _
  · intro r1 _ r2 _ h12
    exact div_le_div_of_nonneg_right (sub_le_sub_right h12 _) (le_of_lt hpos)
  · intro r _ hmax
    rw [normVal, hmax]
    exact div_self (ne_of_gt hpos)
  · intro r _ hmin
    rw [normVal, hmin, sub_self, zero_div]

/-- Witness for C4 at a concrete two-hit list with raw scores 2 and 3. -/
theorem C4_witness :
    normalize_scores [cxOsHit, cxQdHit] =
      List.map (fun r => { r with norm_score := some (normVal [cxOsHit, cxQdHit] r) })
        [cxOsHit, cxQdHit] :=
  (C4_normalize_minmax_rescale [cxOsHit, cxQdHit]
    (by norm_num [listMin, listMax, rawScore, cxOsHit, cxQdHit, min_def])).1

/-! ### C2 — a malformed (None-keyed) hit is silently merged, not rejected -/

/-- C2 (divergence with the claim and §7 of the spec, at the failing
input): the formatters emit `"clause_id"` with `.get`, so a malformed hit
reaches the merge with the key present and equal to `None`. `fuse_results`
then does not fail fast: it succeeds, silently joining the lexical and the
vector `None`-keyed hits — from two different contracts — into a single
fused entry under the `None` join key. -/
theorem C2_code_merges_under_none_key :
    fuse_results [noneKeyOsHit] [noneKeyQdHit] (1/2) 10 = .ok [noneKeyFused] := by
  norm_num +decide [fuse_results, fuseCombined, osMerge, qdMerge, normalize_scores,
    rawScore, listMin, listMax, dictSet, dictGet, osEntry, qdNewEntry, qdUpdate, hybridize,
    noneKeyOsHit, noneKeyQdHit, noneKeyFused, List.insertionSort, List.orderedInsert,
    hybridGe, bind, Except.bind, Except.map, pure, Except.pure]

/-! ### C7 — reranking failures are fatal; the oracle is skipped without the flag -/

/-- C7: with the rerank flag set, an error from the reranking stage fails
the whole request carrying the cause; a successful response has
`reranked = true` iff the flag was set, and then its results are exactly
what the reranking stage returned; with the flag unset the outcome does not
depend on the reranking stage at all (the oracle is never consulted). -/
theorem C7_rerank_failure_is_fatal
    (hs : String → ℕ → ℚ → Except String (List Hit))
    (rr rr' : String → List Hit → ℕ → Except String (List Hit))
    (p : AskPayload) :
    (∀ hits e, p.rerank = true → hs p.query p.top_k p.alpha = .ok hits →
        rr p.query hits p.top_k = .error e →
        ask hs rr p = .error ("Reranking failed: " ++ e)) ∧
    (∀ resp, ask hs rr p = .ok resp → (resp.reranked = true ↔ p.rerank = true)) ∧
    (∀ resp, ask hs rr p = .ok resp → resp.reranked = true →
        ∃ hits, hs p.query p.top_k p.alpha = .ok hits ∧
          rr p.query hits p.top_k = .ok resp.results) ∧
    (p.rerank = false → ask hs rr p = ask hs rr' p) := by
  refine ⟨?_, ?_, ?_, ?_⟩
  · intro hits e hflag hhs hrr
    simp [ask, hhs, hflag, hrr]
  · intro resp hok
    cases hhs : hs p.query p.top_k p.alpha with
    | error e => simp [ask, hhs] at hok
    | ok hits =>
      cases hflag : p.rerank with
      | false =>
        simp only [ask, hhs, hflag, Bool.false_eq_true, if_neg, ite_false,
          Except.ok.injEq, reduceIte] at hok
        rw [← hok]
      | true =>
        cases hrr : rr p.query hits p.top_k with
        | error e => simp [ask, hhs, hflag, hrr] at hok
        | ok hits2 =>
          simp only [ask, hhs, hflag, hrr, if_pos, ite_true, Except.ok.injEq] at hok
          rw [← hok]
  · intro resp hok hrk
    cases hhs : hs p.query p.top_k p.alpha with
    | error e => simp [ask, hhs] at hok
    | ok hits =>
      cases hflag : p.rerank with
      | false =>
        simp only [ask, hhs, hflag, Bool.false_eq_true, if_neg, ite_false,
          Except.ok.injEq, reduceIte] at hok
        rw [← hok] at hrk
        simp at hrk
      | true =>
        cases hrr : rr p.query hits p.top_k with
        | error e => simp [ask, hhs, hflag, hrr] at hok
        | ok hits2 =>
          simp only [ask, hhs, hflag, hrr, if_pos, ite_true, Except.ok.injEq] at hok
          refine ⟨hits, rfl, ?_⟩
          rw [← hok]
          exact hrr
  · intro hflag
    cases hhs : hs p.query p.top_k p.alpha with
    | error e => simp [ask, hhs]
    | ok hits => simp [ask, hhs, hflag]

/-- Witness for C7: a failing oracle fails the request with its cause, and
with the flag unset the stage is irrelevant. -/
theorem C7_witness :
    ask hsOk rrFail payloadRerank = .error ("Reranking failed: " ++ "oracle down") ∧
    ask hsOk rrFail payloadPlain = ask hsOk rrOk payloadPlain :=
  ⟨(C7_rerank_failure_is_fatal hsOk rrFail rrFail payloadRerank).1 [exHitA] "oracle down"
      rfl rfl rfl,
   (C7_rerank_failure_is_fatal hsOk rrFail rrOk payloadPlain).2.2.2 rfl⟩

/-- Successful runs of `fuse_results` decompose into their three stages. -/
theorem fuse_results_eq_ok {os qd : List Hit} {alpha : ℚ} {top_k : ℕ} {out : List Hit}
    (h : fuse_results os qd alpha top_k = .ok out) :
    ∃ m vals, fuseCombined os qd = .ok m ∧
      hybridize alpha (m.map (·.2)) = .ok vals ∧
      out = (List.insertionSort hybridGe vals).take top_k := by
  simp only [fuse_results, bind, Except.bind, pure, Except.pure] at h
  split at h
  · exact absurd h (by simp)
  · rename_i m hm
    split at h
    · exact absurd h (by simp)
    · rename_i vals hv
      exact ⟨m, vals, hm, hv, (Except.ok.inj h).symm⟩

/-! ### C6 — reranking preserves the candidates and sorts by oracle score -/

/-- C6: for a candidate list of size at most `top_k`, reranking returns
exactly the same hits (a permutation, count unchanged), each with
`reranker_score` newly attached and every previously attached field —
`score`, `bm25_score`, `vec_score`, `hybrid_score` — unaltered, sorted
descending by `reranker_score` (regardless of the previous hybrid
order). -/
theorem C6_rerank_refines (oracle : String → String → ℚ) (query : String)
    (hits : List Hit) (top_k : ℕ) (hlen : hits.length ≤ top_k) :
    (rerank oracle query hits top_k).length = hits.length ∧
    (rerank oracle query hits top_k).Perm (hits.map (attachRerankScore oracle query)) ∧
    List.Sorted rerankGe (rerank oracle query hits top_k) ∧
    ∀ r ∈ rerank oracle query hits top_k, ∃ r₀ ∈ hits,
      r.score = r₀.score ∧ r.bm25_score = r₀.bm25_score ∧ r.vec_score = r₀.vec_score ∧
      r.hybrid_score = r₀.hybrid_score ∧ r.highlight = r₀.highlight ∧
      r.contract_id = r₀.contract_id ∧ r.clause_id = r₀.clause_id ∧
      r.reranker_score = some (oracle query (r₀.text_snippet.getD "")) := by
  have hperm : (List.insertionSort rerankGe
      (hits.map (attachRerankScore oracle query))).Perm
      (hits.map (attachRerankScore oracle query)) := List.perm_insertionSort _ _
  have hlen2 : (List.insertionSort rerankGe
      (hits.map (attachRerankScore oracle query))).length = hits.length := by
    rw [hperm.length_eq, List.length_map]
  have htake : rerank oracle query hits top_k =
      List.insertionSort rerankGe (hits.map (attachRerankScore oracle query)) := by
    rw [rerank, List.take_of_length_le]
    rw [hlen2]
    exact hlen
  refine ⟨?_, ?_, ?_, ?_⟩
  · rw [htake, hlen2]
  · rw [htake]
    exact hperm
  · rw [htake]
    exact List.sorted_insertionSort _ _
  · intro r hr
    rw [htake] at hr
    have hr2 : r ∈ hits.map (attachRerankScore oracle query) := hperm.mem_iff.1 hr
    obtain ⟨r₀, hr₀, rfl⟩ := List.mem_map.1 hr2
    exact ⟨r₀, hr₀, rfl, rfl, rfl, rfl, rfl, rfl, rfl, rfl⟩

/-- Witness for C6 on a concrete two-hit candidate list. -/
theorem C6_witness :
    (rerank (fun _ _ => (1:ℚ)) "q" [exHitA, exHitB] 5).length = [exHitA, exHitB].length :=
  (C6_rerank_refines (fun _ _ => (1:ℚ)) "q" [exHitA, exHitB] 5 (by simp)).1

/-! ### C5 — fusion output: budget, descending order, stable tie-break -/

/-- C5: every successful fusion returns at most `top_k` hits sorted
descending by `hybrid_score`; on the spec's §8 example — lexical
`[{A, raw=10}]`, vector `[{B, raw=0.9}]`, `alpha = 0.5`, `top_k = 10` —
the output is exactly A (`bm25 = 1.0`, `vec = 0.0`, `hybrid = 0.5`)
followed by B (`bm25 = 0.0`, `vec = 1.0`, `hybrid = 0.5`), the tie broken
by stable original encounter order (lexical before vector-only). -/
theorem C5_fusion_sorted_budget :
    (∀ (os qd : List Hit) (alpha : ℚ) (top_k : ℕ) (out : List Hit),
        fuse_results os qd alpha top_k = .ok out →
        out.length ≤ top_k ∧ List.Sorted hybridGe out) ∧
    fuse_results [exHitA] [exHitB] (1/2) 10 = .ok [exFusedA, exFusedB] := by
  constructor
  · intro os qd alpha top_k out hout
    obtain ⟨m, vals, hm, hv, rfl⟩ := fuse_results_eq_ok hout
    constructor
    · rw [List.length_take]
      exact min_le_left _ _
    · exact List.Pairwise.sublist (List.take_sublist _ _)
        (List.sorted_insertionSort hybridGe vals)
  · norm_num +decide [fuse_results, fuseCombined, osMerge, qdMerge, normalize_scores, rawScore,
      listMin, listMax, dictSet, dictGet, osEntry, qdNewEntry, qdUpdate, hybridize,
      exHitA, exHitB, exFusedA, exFusedB, List.insertionSort, List.orderedInsert, hybridGe,
      bind, Except.bind, Except.map, pure, Except.pure]

/-- Witness for C5's budget/order part, instantiated on the example run. -/
theorem C5_witness :
    ([exFusedA, exFusedB] : List Hit).length ≤ 10 ∧
      List.Sorted hybridGe [exFusedA, exFusedB] :=
  C5_fusion_sorted_budget.1 [exHitA] [exHitB] (1/2) 10 [exFusedA, exFusedB]
    C5_fusion_sorted_budget.2

/-! ### C9 — the hybrid-score formula, absence-is-zero, and its bounds -/

/-- C9: every fused entry carries `bm25_score` and `vec_score` and its
`hybrid_score` equals `alpha*bm25 + (1-alpha)*vec`; a backend in whose list
the clause is absent contributes exactly 0.0; and whenever both scores and
the weight lie in `[0,1]`, so does the hybrid score. -/
theorem C9_hybrid_formula (os qd : List Hit) (alpha : ℚ) (top_k : ℕ) (out : List Hit)
    (hout : fuse_results os qd alpha top_k = .ok out) :
    ∀ r ∈ out, ∃ b v, r.bm25_score = some b ∧ r.vec_score = some v ∧
      r.hybrid_score = some (alpha * b + (1 - alpha) * v) ∧
      ((∀ r' ∈ qd, r'.clause_id ≠ r.clause_id) → v = 0) ∧
      ((∀ r' ∈ os, r'.clause_id ≠ r.clause_id) → b = 0) ∧
      (0 ≤ b → b ≤ 1 → 0 ≤ v → v ≤ 1 → 0 ≤ alpha → alpha ≤ 1 →
        0 ≤ alpha * b + (1 - alpha) * v ∧ alpha * b + (1 - alpha) * v ≤ 1) := by
  intro r hr
  obtain ⟨m, vals, hm, hv, rfl⟩ := fuse_results_eq_ok hout
  obtain ⟨m1, hm1, hq1⟩ := fuseCombined_eq_ok hm
  have hwf : dictWF m := qdMerge_wf (osMerge_wf dictWF_nil hm1) hq1
  have hr1 : r ∈ List.insertionSort hybridGe vals := (List.take_sublist _ _).subset hr
  have hr2 : r ∈ vals := (List.perm_insertionSort hybridGe vals).mem_iff.1 hr1
  obtain ⟨r₀, hr₀m, b, v, hb, hv2, rfl⟩ := hybridize_mem hv hr2
  obtain ⟨p, hp, hp2⟩ := List.mem_map.1 hr₀m
  have hkey : r₀.clause_id = p.1 := hp2 ▸ hwf.2 p hp
  have hget : dictGet m p.1 = some r₀ := by
    have : (p.1, r₀) ∈ m := by
      have hpp : p = (p.1, r₀) := by
        obtain ⟨a, c⟩ := p
        simp only at hp2
        rw [hp2]
      exact hpp ▸ hp
    exact dictGet_of_mem_of_wf hwf.1 this
  refine ⟨b, v, hb, hv2, rfl, ?_, ?_, ?_⟩
  · intro habs
    have habs' : ∀ r' ∈ normalize_scores qd, r'.clause_id ≠ p.1 := by
      intro r' hr' hc
      obtain ⟨r'', hr'', hc''⟩ := exists_clause_id_normalize_iff.1 ⟨r', hr', hc⟩
      exact habs r'' hr'' (by rw [hc'']; exact hkey.symm ▸ rfl)
    have hchain := qdMerge_get hq1 p.1
    rw [qdChainK_of_no_match _ habs'] at hchain
    rw [hget] at hchain
    have hos := osMerge_get hm1 p.1
    rw [← hchain] at hos
    cases hl : lastWith p.1 (normalize_scores os) with
    | none =>
      rw [hl] at hos
      cases hos
    | some hA =>
      rw [hl] at hos
      have hr0 : r₀ = osEntry hA := Option.some.inj hos
      have : r₀.vec_score = some 0 := by rw [hr0]; rfl
      rw [hv2] at this
      exact Option.some.inj this
  · intro habs
    have habs' : ∀ r' ∈ normalize_scores os, r'.clause_id ≠ p.1 := by
      intro r' hr' hc
      obtain ⟨r'', hr'', hc''⟩ := exists_clause_id_normalize_iff.1 ⟨r', hr', hc⟩
      exact habs r'' hr'' (by rw [hc'']; exact hkey.symm ▸ rfl)
    have hnoneos : lastWith p.1 (normalize_scores os) = none := by
      cases hl : lastWith p.1 (normalize_scores os) with
      | none => rfl
      | some hA =>
        have hsome : (lastWith p.1 (normalize_scores os)).isSome := by rw [hl]; rfl
        obtain ⟨r', hr', hc'⟩ := lastWith_isSome_iff.1 hsome
        exact absurd hc' (habs' r' hr')
    have hos := osMerge_get hm1 p.1
    rw [hnoneos] at hos
    have hchain := qdMerge_get hq1 p.1
    rw [hos] at hchain
    rw [hget] at hchain
    have := qdChainK_bm25_of_none hchain.symm
    rw [hb] at this
    exact Option.some.inj this
  · intro hb0 hb1 hv0 hv1 ha0 ha1
    constructor
    · have h1 : 0 ≤ alpha * b := mul_nonneg ha0 hb0
      have h2 : 0 ≤ (1 - alpha) * v := mul_nonneg (by linarith) hv0
      linarith
    · have h1 : alpha * b ≤ alpha := mul_le_of_le_one_right ha0 hb1
      have h2 : (1 - alpha) * v ≤ 1 - alpha := mul_le_of_le_one_right (by linarith) hv1
      linarith

/-! ### C10 — fused keys are pairwise distinct; duplicates: last wins -/

/-- C10: the fused output never contains two entries with the same join
key — its clause ids are pairwise distinct — and inside one input list a
later hit with the same `clause_id` silently overwrites the earlier one's
entry (last occurrence wins). -/
theorem C10_distinct_keys_last_wins :
    (∀ (os qd : List Hit) (alpha : ℚ) (top_k : ℕ) (out : List Hit),
        fuse_results os qd alpha top_k = .ok out → (out.map (·.clause_id)).Nodup) ∧
    (∀ (l : List Hit) (m : Combined), osMerge l [] = .ok m →
        ∀ k, dictGet m k = (lastWith k l).map osEntry) := by
  constructor
  · intro os qd alpha top_k out hout
    obtain ⟨m, vals, hm, hv, rfl⟩ := fuse_results_eq_ok hout
    obtain ⟨m1, hm1, hq1⟩ := fuseCombined_eq_ok hm
    have hwf : dictWF m := qdMerge_wf (osMerge_wf dictWF_nil hm1) hq1
    have hvals : vals.map (·.clause_id) = (m.map (·.2)).map (·.clause_id) :=
      hybridize_clause_ids hv
    have hmm : (m.map (·.2)).map (·.clause_id) = dictKeys m := by
      rw [List.map_map, dictKeys]
      apply List.map_congr_left
      intro p hp
      exact hwf.2 p hp
    have hnodup : (vals.map (·.clause_id)).Nodup := by
      rw [hvals, hmm]
      exact hwf.1
    have hnodup2 : ((List.insertionSort hybridGe vals).map (·.clause_id)).Nodup :=
      (((List.perm_insertionSort hybridGe vals)).map (·.clause_id)).nodup_iff.2 hnodup
    have hsub : List.Sublist
        (((List.insertionSort hybridGe vals).take top_k).map (·.clause_id))
        ((List.insertionSort hybridGe vals).map (·.clause_id)) :=
      (List.take_sublist _ _).map _
    exact hnodup2.sublist hsub
  · intro l m h k
    have hchar := osMerge_get h k
    cases hl : lastWith k l with
    | some hh =>
      rw [hl] at hchar
      rw [hchar]
      rfl
    | none =>
      rw [hl] at hchar
      rw [hchar]
      rfl

/-- Witness for C10: the example run has distinct fused keys, and with a
duplicated clause id in the lexical list the later hit's entry wins. -/
theorem C10_witness :
    (([exFusedA, exFusedB] : List Hit).map (·.clause_id)).Nodup ∧
      dictGet [("c", osEntry dupHit2)] "c" =
        (lastWith "c" [dupHit1, dupHit2]).map osEntry :=
  ⟨C10_distinct_keys_last_wins.1 [exHitA] [exHitB] (1/2) 10 [exFusedA, exFusedB]
      (by norm_num +decide [fuse_results, fuseCombined, osMerge, qdMerge, normalize_scores,
        rawScore, listMin, listMax, dictSet, dictGet, osEntry, qdNewEntry, qdUpdate, hybridize,
        exHitA, exHitB, exFusedA, exFusedB, List.insertionSort, List.orderedInsert, hybridGe,
        bind, Except.bind, Except.map, pure, Except.pure]),
   C10_distinct_keys_last_wins.2 [dupHit1, dupHit2] [("c", osEntry dupHit2)]
      (by simp +decide [osMerge, dictSet, osEntry, dupHit1, dupHit2]) "c"⟩

/-- Witness for C9 at the §8 example run, instantiated on fused hit A. -/
theorem C9_witness :
    ∃ b v, exFusedA.bm25_score = some b ∧ exFusedA.vec_score = some v ∧
      exFusedA.hybrid_score = some ((1/2) * b + (1 - (1/2)) * v) ∧
      ((∀ r' ∈ [exHitB], r'.clause_id ≠ exFusedA.clause_id) → v = 0) ∧
      ((∀ r' ∈ [exHitA], r'.clause_id ≠ exFusedA.clause_id) → b = 0) ∧
      (0 ≤ b → b ≤ 1 → 0 ≤ v → v ≤ 1 → 0 ≤ (1/2 : ℚ) → (1/2 : ℚ) ≤ 1 →
        0 ≤ (1/2) * b + (1 - (1/2)) * v ∧ (1/2) * b + (1 - (1/2)) * v ≤ 1) :=
  C9_hybrid_formula [exHitA] [exHitB] (1/2) 10 [exFusedA, exFusedB]
    (by norm_num +decide [fuse_results, fuseCombined, osMerge, qdMerge, normalize_scores,
      rawScore, listMin, listMax, dictSet, dictGet, osEntry, qdNewEntry, qdUpdate, hybridize,
      exHitA, exHitB, exFusedA, exFusedB, List.insertionSort, List.orderedInsert, hybridGe,
      bind, Except.bind, Except.map, pure, Except.pure])
    exFusedA (List.mem_cons_self _ _)

/-! ### C1 — the merge joins by `clause_id` alone, not by the full pair -/

/-- Counterexample to C1 as stated: `cxOsHit` (contract `X`) and `cxQdHit`
(contract `Y`) agree on `clause_id = "c"` but differ in `contract_id`, yet
fusion merges them into the single entry `cxFused` (one element, carrying
`bm25_score` from the lexical hit and `vec_score` from the vector hit,
based on the lexical record with `contract_id = "X"`), instead of keeping
them as two distinct fused entries. -/
theorem C1_counterexample :
    fuse_results [cxOsHit] [cxQdHit] (1/2) 10 = .ok [cxFused] := by
  norm_num +decide [fuse_results, fuseCombined, osMerge, qdMerge, normalize_scores,
    rawScore, listMin, listMax, dictSet, dictGet, osEntry, qdNewEntry, qdUpdate, hybridize,
    cxOsHit, cxQdHit, cxCombinedEntry, cxFused, List.insertionSort, List.orderedInsert,
    hybridGe, bind, Except.bind, Except.map, pure, Except.pure]

/-- C1 amended: the merge joins hits by `clause_id` alone — a key is
present in the fused map exactly when some hit of either backend list
carries that `clause_id`, regardless of `contract_id`; hits from the two
backends are combined into a single entry exactly when their `clause_id`
values are equal. -/
theorem C1_amended_join_by_clause_id (os qd : List Hit) (M : Combined)
    (h : fuseCombined os qd = .ok M) (k : String) :
    (dictGet M k).isSome ↔
      (∃ r ∈ os, r.clause_id = some k) ∨ (∃ r ∈ qd, r.clause_id = some k) := by
  obtain ⟨m1, hm1, hq1⟩ := fuseCombined_eq_ok h
  rw [qdMerge_get hq1 k, qdChainK_isSome_iff, osMerge_get hm1 k]
  cases hl : lastWith k (normalize_scores os) with
  | some hA =>
    have hsome : (lastWith k (normalize_scores os)).isSome := by rw [hl]; rfl
    have hos : ∃ r ∈ os, r.clause_id = some k :=
      exists_clause_id_normalize_iff.1 (lastWith_isSome_iff.1 hsome)
    simp [hos]
  | none =>
    have hnos : ¬ ∃ r ∈ os, r.clause_id = some k := by
      intro hex
      have h2 := lastWith_isSome_iff.2 (exists_clause_id_normalize_iff.2 hex)
      rw [hl] at h2
      simp at h2
    have hqiff : (∃ r ∈ normalize_scores qd, r.clause_id = some k) ↔
        (∃ r ∈ qd, r.clause_id = some k) := exists_clause_id_normalize_iff
    simp only [dictGet, Option.isSome_none, Bool.false_eq_true, false_or, hqiff]
    constructor
    · exact fun hq => Or.inr hq
    · rintro (hq | hq)
      · exact absurd hq hnos
      · exact hq

/-- Witness for the amended C1 at the counterexample input: the key `c` is
present, fed by both contracts' hits. -/
theorem C1_witness :
    (dictGet [("c", cxCombinedEntry)] "c").isSome ↔
      (∃ r ∈ [cxOsHit], r.clause_id = some "c") ∨
        (∃ r ∈ [cxQdHit], r.clause_id = some "c") :=
  C1_amended_join_by_clause_id [cxOsHit] [cxQdHit] [("c", cxCombinedEntry)]
    (by norm_num +decide [fuseCombined, osMerge, qdMerge, normalize_scores, rawScore,
      listMin, listMax, dictSet, dictGet, osEntry, qdNewEntry, qdUpdate,
      cxOsHit, cxQdHit, cxCombinedEntry, bind, Except.bind, pure, Except.pure]) "c"

/-! ### C8 — fusion is commutative in backend-processing order -/

/-- C8: for a clause present in both backend lists, the fused entry's
`bm25_score` and `vec_score` — and hence the hybrid combination
`alpha*bm25 + (1-alpha)*vec` for every weight — are identical whether the
lexical list is processed first (the code's order) or the vector list is
processed first (the spec's swapped order). -/
theorem C8_fusion_commutative (os qd : List Hit) (k : String) (M1 M2 : Combined)
    (hos : ∃ r ∈ os, r.clause_id = some k) (hqd : ∃ r ∈ qd, r.clause_id = some k)
    (h1 : fuseCombined os qd = .ok M1) (h2 : fuseCombinedSwapped os qd = .ok M2) :
    ∃ r1 r2, dictGet M1 k = some r1 ∧ dictGet M2 k = some r2 ∧
      r1.bm25_score = r2.bm25_score ∧ r1.vec_score = r2.vec_score ∧
      ∀ alpha : ℚ,
        alpha * r1.bm25_score.getD 0 + (1 - alpha) * r1.vec_score.getD 0 =
          alpha * r2.bm25_score.getD 0 + (1 - alpha) * r2.vec_score.getD 0 := by
  obtain ⟨m1, hm1, hq1⟩ := fuseCombined_eq_ok h1
  obtain ⟨m2, hs2, ho2⟩ := fuseCombinedSwapped_eq_ok h2
  have hosn : (lastWith k (normalize_scores os)).isSome :=
    lastWith_isSome_iff.2 (exists_clause_id_normalize_iff.2 hos)
  have hqdn : (lastWith k (normalize_scores qd)).isSome :=
    lastWith_isSome_iff.2 (exists_clause_id_normalize_iff.2 hqd)
  obtain ⟨hA, hlA⟩ := Option.isSome_iff_exists.1 hosn
  obtain ⟨hB, hlB⟩ := Option.isSome_iff_exists.1 hqdn
  have e1 : dictGet m1 k = some (osEntry hA) := by
    have h3 := osMerge_get hm1 k
    rw [hlA] at h3
    exact h3
  have e2 : dictGet M1 k = qdChainK k (some (osEntry hA)) (normalize_scores qd) := by
    rw [qdMerge_get hq1 k, e1]
  obtain ⟨out1, hout1⟩ := @qdChainK_some k (normalize_scores qd) (osEntry hA)
  have e3 : dictGet M1 k = some out1 := by rw [e2, hout1]
  have ebm1 : out1.bm25_score = hA.norm_score := qdChainK_bm25_of_some hout1
  have evec1 : out1.vec_score = hB.norm_score := qdChainK_vec_last hlB hout1
  have f1 : dictGet m2 k = some (qdSeedEntry hB) := by
    have h3 := qdSeedMerge_get hs2 k
    rw [hlB] at h3
    exact h3
  have f2 : dictGet M2 k = osChainK k (some (qdSeedEntry hB)) (normalize_scores os) := by
    rw [osOverlayMerge_get ho2 k, f1]
  obtain ⟨out2, hout2⟩ := @osChainK_some k (normalize_scores os) (qdSeedEntry hB)
  have f3 : dictGet M2 k = some out2 := by rw [f2, hout2]
  have ebm2 : out2.bm25_score = hA.norm_score := osChainK_bm25_last hlA hout2
  have evec2 : out2.vec_score = hB.norm_score := osChainK_vec_of_some hout2
  refine ⟨out1, out2, e3, f3, ?_, ?_, ?_⟩
  · rw [ebm1, ebm2]
  · rw [evec1, evec2]
  · intro alpha
    rw [ebm1, ebm2, evec1, evec2]

/-- Witness for C8: the shared clause `c` gets the same `bm25_score` and
`vec_score` in both processing orders on the concrete two-contract
input. -/
theorem C8_witness :
    ∃ r1 r2, dictGet [("c", cxCombinedEntry)] "c" = some r1 ∧
      dictGet [("c", cxSwappedEntry)] "c" = some r2 ∧
      r1.bm25_score = r2.bm25_score ∧ r1.vec_score = r2.vec_score ∧
      ∀ alpha : ℚ,
        alpha * r1.bm25_score.getD 0 + (1 - alpha) * r1.vec_score.getD 0 =
          alpha * r2.bm25_score.getD 0 + (1 - alpha) * r2.vec_score.getD 0 :=
  C8_fusion_commutative [cxOsHit] [cxQdHit] "c"
    [("c", cxCombinedEntry)] [("c", cxSwappedEntry)]
    ⟨cxOsHit, List.mem_singleton.2 rfl, rfl⟩
    ⟨cxQdHit, List.mem_singleton.2 rfl, rfl⟩
    (by norm_num +decide [fuseCombined, osMerge, qdMerge, normalize_scores, rawScore,
      listMin, listMax, dictSet, dictGet, osEntry, qdNewEntry, qdUpdate,
      cxOsHit, cxQdHit, cxCombinedEntry, bind, Except.bind, pure, Except.pure])
    (by norm_num +decide [fuseCombinedSwapped, qdSeedMerge, osOverlayMerge, normalize_scores,
      rawScore, listMin, listMax, dictSet, dictGet, qdSeedEntry, osNewEntry, osOverlayUpdate,
      cxOsHit, cxQdHit, cxSwappedEntry, bind, Except.bind, pure, Except.pure])

end LawMan
